import Mathlib

/-!
# Verification of the xcube-cci remote Zarr chunk store

Shallow embedding of the core algorithms of `xcube_cci/chunkstore.py` and
`xcube_cci/cciodp.py`, together with theorems settling the specification
claims about them.

Conventions used throughout:

* Python machine integers are modelled as `Nat`/`Int` (numpy `int64`
  products in this code stay far below `2^63` on all inputs considered,
  and the claims quantify over abstract integer inputs).
* Python `float` intermediate values that hold exact small rationals are
  modelled as `Rat` (the comparisons performed by the source on these
  values are exact at the modelled magnitudes).
* Fallible code is modelled with `Except PyExc`, where `PyExc` names the
  Python exception class that the corresponding statement would raise.
* `bisect.bisect_left` / `bisect.bisect_right` are Python standard library
  functions (external collaborators of this repository); they are modelled
  by their documented contract on sorted input: the left (resp. right)
  insertion point, i.e. the length of the prefix of elements `< x`
  (resp. `≤ x`).
-/

/-- Python exception classes raised by the modelled code paths. -/
inductive PyExc where
  /-- Raised as `TypeError` by `__setitem__`/`__delitem__` ("store is read-only"). -/
  | typeError : PyExc
  /-- Raised as `AttributeError` (attribute access on `None`). -/
  | attributeError : PyExc
  /-- Raised as `ValueError` ("too many values to unpack" or a failed `int()` call). -/
  | valueError : PyExc
  /-- Raised as `KeyError` (missing dictionary key). -/
  | keyError : PyExc
  deriving Repr, DecidableEq

/-- Product of a list of naturals (`np.prod`/`math.prod` on nonnegative ints). -/
def prodNat (l : List Nat) : Nat := l.foldr (· * ·) 1

/-- Model of `bisect.bisect_left` on a sorted list: length of the prefix of values `< x`.
Modelled from the Python standard library contract for sorted inputs. -/
def bisect_left (a : List Int) (x : Int) : Nat :=
  (a.takeWhile (fun v => decide (v < x))).length

/-- Model of `bisect.bisect_right` on a sorted list: length of the prefix of values `≤ x`.
Modelled from the Python standard library contract for sorted inputs. -/
def bisect_right (a : List Int) (x : Int) : Nat :=
  (a.takeWhile (fun v => decide (v ≤ x))).length

section ReadOnlyStore

/-!
## `RemoteChunkStore.__setitem__` / `__delitem__` (chunkstore.py lines 694-702)

Both methods unconditionally raise `TypeError(f'{self._class_name} is
read-only')`; no statement before the `raise` touches the store's
key-value contents.  The store contents are modelled as an association
list from keys to values.
-/

/-- The key-value contents of the virtual Zarr store, as visible through
the mapping interface. -/
def StoreContents := List (String × ByteArray)

/-- Embeds `RemoteChunkStore.__setitem__(key, value)`: unconditionally raises
`TypeError('... is read-only')`.  Returns the (unchanged) contents on the
non-existent success path. -/
def storeSetItem (_vfs : StoreContents) (_key : String) (_value : ByteArray) :
    Except PyExc StoreContents :=
  Except.error PyExc.typeError

/-- Embeds `RemoteChunkStore.__delitem__(key)`: unconditionally raises
`TypeError('... is read-only')`. -/
def storeDelItem (_vfs : StoreContents) (_key : String) :
    Except PyExc StoreContents :=
  Except.error PyExc.typeError

end ReadOnlyStore

/-- C8: for every key and every value, `__setitem__` and `__delitem__` on the
virtual Zarr store raise the read-only `TypeError`, and the store's key-value
contents are unchanged by the failed call (no successful result state other
than the original contents is ever produced). -/
theorem c8_store_mutation_read_only (vfs : StoreContents) (key : String)
    (value : ByteArray) :
    storeSetItem vfs key value = Except.error PyExc.typeError ∧
    storeDelItem vfs key = Except.error PyExc.typeError ∧
    (∀ vfs', storeSetItem vfs key value = Except.ok vfs' → vfs' = vfs) ∧
    (∀ vfs', storeDelItem vfs key = Except.ok vfs' → vfs' = vfs) := by
  refine ⟨rfl, rfl, ?_, ?_⟩ <;> intro vfs' h <;> exact absurd h (by simp [storeSetItem, storeDelItem])

section TimeArray

/-!
## Synthetic `time` array (chunkstore.py lines 92-97, 207-208)

```python
t_array = [s.to_pydatetime() + 0.5 * (e.to_pydatetime() - s.to_pydatetime())
           for s, e in self._time_ranges]
t_array = np.array(t_array).astype('datetime64[s]').astype(np.int64)
t_bnds_array = np.array(self._time_ranges).astype('datetime64[s]').astype(np.int64)
```

Python `datetime`/`timedelta` values are exact in microseconds; they are
modelled as integer microseconds since the epoch.  `0.5 * timedelta`
rounds to the nearest microsecond, which is exact whenever the microsecond
difference is even (in particular for the whole-second timestamps this
store constructs).  `astype('datetime64[s]')` truncates towards the past,
i.e. floors to whole seconds (`Int.fdiv` by `10^6`).
-/

/-- Microseconds per second. -/
def usPerSec : Int := 1000000

/-- One element of `t_array`: the time-range midpoint
`s + 0.5 * (e - s)` (exact for even microsecond differences) floored to
whole seconds by the `datetime64[s]` cast.  Times in microseconds. -/
def timeMidpointSec (s e : Int) : Int :=
  Int.fdiv (s + (e - s) / 2) usPerSec

/-- The synthetic `time` array (seconds since epoch), built from the
time ranges (given in microseconds since epoch). -/
def timeArray (timeRanges : List (Int × Int)) : List Int :=
  timeRanges.map (fun r => timeMidpointSec r.1 r.2)

/-- The `time_bnds` array (seconds since epoch): each time range cast to
whole seconds. -/
def timeBndsArray (timeRanges : List (Int × Int)) : List (Int × Int) :=
  timeRanges.map (fun r => (Int.fdiv r.1 usPerSec, Int.fdiv r.2 usPerSec))

theorem timeMidpoint_of_whole_seconds (s e : Int)
    (hs : usPerSec ∣ s) (he : usPerSec ∣ e) :
    timeMidpointSec s e =
      Int.fdiv s usPerSec +
        Int.fdiv (Int.fdiv e usPerSec - Int.fdiv s usPerSec) 2 := by
  obtain ⟨a, ha⟩ := hs
  obtain ⟨b, hb⟩ := he
  subst ha hb
  simp only [timeMidpointSec, usPerSec] at *
  rw [Int.fdiv_eq_ediv _ (by norm_num), Int.fdiv_eq_ediv _ (by norm_num),
    Int.fdiv_eq_ediv _ (by norm_num), Int.fdiv_eq_ediv _ (by norm_num)]
  omega

end TimeArray

/-- C7: in every successfully opened store, the synthetic `time` array has the
same length as the first axis of `time_bnds`, and for whole-second time ranges
(the only ones this store constructs) every element equals
`t_bnds[i,0] + (t_bnds[i,1] - t_bnds[i,0]) / 2` in integer (floor-divided)
seconds since 1970-01-01T00:00:00 UTC. -/
theorem c7_time_array_midpoints (timeRanges : List (Int × Int))
    (hwhole : ∀ r ∈ timeRanges, usPerSec ∣ r.1 ∧ usPerSec ∣ r.2) :
    (timeArray timeRanges).length = (timeBndsArray timeRanges).length ∧
    ∀ i : Nat, ∀ h : i < (timeArray timeRanges).length,
      (timeArray timeRanges).get ⟨i, h⟩ =
        ((timeBndsArray timeRanges).get ⟨i, by
            simpa [timeArray, timeBndsArray] using h⟩).1 +
          Int.fdiv
            (((timeBndsArray timeRanges).get ⟨i, by
                simpa [timeArray, timeBndsArray] using h⟩).2 -
              ((timeBndsArray timeRanges).get ⟨i, by
                simpa [timeArray, timeBndsArray] using h⟩).1) 2 := by
  constructor
  · simp [timeArray, timeBndsArray]
  · intro i h
    have hmem : timeRanges.get ⟨i, by simpa [timeArray] using h⟩ ∈ timeRanges :=
      List.get_mem _ _ _
    obtain ⟨hs, he⟩ := hwhole _ hmem
    simp only [timeArray, timeBndsArray, List.get_eq_getElem, List.getElem_map]
    exact timeMidpoint_of_whole_seconds _ _ hs he

/-- Witness for C7 at the concrete time range 2010-02-01T00:00:00 to
2010-03-01T00:00:00 (in microseconds): midpoint 2010-02-15T00:00:00. -/
theorem c7_time_array_midpoints_witness :
    (∀ r ∈ [((1264982400000000 : Int), (1267401600000000 : Int))],
        usPerSec ∣ r.1 ∧ usPerSec ∣ r.2) ∧
    (timeArray [((1264982400000000 : Int), 1267401600000000)]).length =
      (timeBndsArray [((1264982400000000 : Int), 1267401600000000)]).length := by
  refine ⟨by decide, ?_⟩
  exact (c7_time_array_midpoints [((1264982400000000 : Int), 1267401600000000)]
    (by decide)).1

section DimensionIndexes

/-!
## `CciChunkStore._get_dimension_indexes_for_chunk` (chunkstore.py lines 862-881)

```python
def _get_dimension_indexes_for_chunk(self, var_name, chunk_index):
    dim_indexes = []
    var_dimensions = self.get_attrs(var_name).get('file_dimensions', [])
    chunk_sizes = self.get_attrs(var_name).get('file_chunk_sizes', [])
    offset = 0
    # dealing with the case that time has been added as additional first dimension
    if len(chunk_index) > len(chunk_sizes):
        offset = 1
    for i, var_dimension in enumerate(var_dimensions):
        if var_dimension == 'time':
            dim_indexes.append(slice(None, None, None))
            continue
        dim_size = self._dimensions.get(var_dimension, -1)
        if dim_size < 0:
            raise ValueError(...)
        data_offset = self._dimension_chunk_offsets.get(var_dimension, 0)
        start = data_offset + chunk_index[i + offset] * chunk_sizes[i]
        end = min(start + chunk_sizes[i], data_offset + dim_size)
        dim_indexes.append(slice(start, end))
    return tuple(dim_indexes)
```

`self._dimensions` stores nonnegative sizes, so `dim_size < 0` holds exactly
when the dimension is absent; it is modelled by `Option Nat` with `none`
raising `ValueError`.  List indexing out of range (an `IndexError` in
Python) is excluded by the length hypotheses of the theorems; the
embedding uses `getD _ 0` there.
-/

/-- A Python `slice`: either `slice(None, None, None)` (full axis) or
`slice(start, stop)` (half-open). -/
inductive PySlice where
  | full : PySlice
  | bounded (start stop : Nat) : PySlice
  deriving Repr, DecidableEq

/-- The `for i, var_dimension in enumerate(var_dimensions)` loop of
`_get_dimension_indexes_for_chunk`; `i` is the running enumeration index. -/
def dimIndexesLoop (dims : String → Option Nat) (offs : String → Nat)
    (chunkSizes : List Nat) (chunkIndex : List Nat) (offset : Nat) :
    Nat → List String → Except PyExc (List PySlice)
  | _, [] => Except.ok []
  | i, d :: rest =>
    if d = "time" then do
      let tail ← dimIndexesLoop dims offs chunkSizes chunkIndex offset (i + 1) rest
      Except.ok (PySlice.full :: tail)
    else
      match dims d with
      | none => Except.error PyExc.valueError
      | some dimSize => do
        let dataOffset := offs d
        let start := dataOffset + chunkIndex.getD (i + offset) 0 * chunkSizes.getD i 0
        let stop := min (start + chunkSizes.getD i 0) (dataOffset + dimSize)
        let tail ← dimIndexesLoop dims offs chunkSizes chunkIndex offset (i + 1) rest
        Except.ok (PySlice.bounded start stop :: tail)

/-- Embeds `CciChunkStore._get_dimension_indexes_for_chunk`.  `varDimensions` is the
variable's `file_dimensions` attribute, `chunkSizes` its `file_chunk_sizes`,
`dims` is `self._dimensions`, `offs` is `self._dimension_chunk_offsets`
(with default 0), and `chunkIndex` the requested chunk index. -/
def getDimensionIndexesForChunk (varDimensions : List String)
    (chunkSizes : List Nat) (dims : String → Option Nat)
    (offs : String → Nat) (chunkIndex : List Nat) :
    Except PyExc (List PySlice) :=
  let offset := if chunkIndex.length > chunkSizes.length then 1 else 0
  dimIndexesLoop dims offs chunkSizes chunkIndex offset 0 varDimensions

theorem dimIndexesLoop_spec (dims : String → Option Nat) (offs : String → Nat)
    (cs ci : List Nat) (o : Nat) :
    ∀ (vd : List String) (i : Nat),
      (∀ d ∈ vd, d ≠ "time" → (dims d).isSome = true) →
      ∃ slices, dimIndexesLoop dims offs cs ci o i vd = Except.ok slices ∧
        slices.length = vd.length ∧
        ∀ j : Nat,
          (vd.get? j = some "time" → slices.get? j = some PySlice.full) ∧
          (∀ d, vd.get? j = some d → d ≠ "time" →
            ∃ sz, dims d = some sz ∧
              slices.get? j = some (PySlice.bounded
                (offs d + ci.getD (i + j + o) 0 * cs.getD (i + j) 0)
                (min (offs d + (ci.getD (i + j + o) 0 + 1) * cs.getD (i + j) 0)
                  (offs d + sz)))) := by
  intro vd
  induction vd with
  | nil =>
    intro i _
    refine ⟨[], rfl, rfl, ?_⟩
    intro j
    constructor
    · intro hj; simp at hj
    · intro d hj; simp at hj
  | cons d rest ih =>
    intro i hsome
    have hrest : ∀ d' ∈ rest, d' ≠ "time" → (dims d').isSome = true :=
      fun d' hd' => hsome d' (List.mem_cons_of_mem _ hd')
    obtain ⟨tail, htail, hlen, hspec⟩ := ih (i + 1) hrest
    by_cases hd : d = "time"
    · subst hd
      refine ⟨PySlice.full :: tail, ?_, by simp [hlen], ?_⟩
      · simp only [dimIndexesLoop, if_pos rfl, htail]
        rfl
      · intro j
        match j with
        | 0 =>
          constructor
          · intro _; rfl
          · intro d' hd' hne; simp at hd'; exact absurd hd'.symm hne
        | j + 1 =>
          constructor
          · intro hj
            have := (hspec j).1 (by simpa using hj)
            simpa [Nat.add_comm, Nat.add_assoc, Nat.add_left_comm] using this
          · intro d' hd' hne
            obtain ⟨sz, hsz, hs⟩ := (hspec j).2 d' (by simpa using hd') hne
            refine ⟨sz, hsz, ?_⟩
            have heq : i + 1 + j = i + (j + 1) := by omega
            rw [heq] at hs
            simpa using hs
    · have hd_some : (dims d).isSome = true :=
        hsome d (List.mem_cons_self _ _) hd
      obtain ⟨sz, hsz⟩ := Option.isSome_iff_exists.mp hd_some
      refine ⟨PySlice.bounded
          (offs d + ci.getD (i + o) 0 * cs.getD i 0)
          (min (offs d + ci.getD (i + o) 0 * cs.getD i 0 + cs.getD i 0)
            (offs d + sz)) :: tail, ?_, by simp [hlen], ?_⟩
      · simp only [dimIndexesLoop, hd, if_neg hd, hsz, htail]
        rfl
      · intro j
        match j with
        | 0 =>
          constructor
          · intro hj; simp at hj; exact absurd hj hd
          · intro d' hd' hne
            simp at hd'
            subst hd'
            refine ⟨sz, hsz, ?_⟩
            have harith : offs d + ci.getD (i + o) 0 * cs.getD i 0 + cs.getD i 0
                = offs d + (ci.getD (i + o) 0 + 1) * cs.getD i 0 := by ring
            simp only [List.get?, Nat.add_zero, harith]
        | j + 1 =>
          constructor
          · intro hj
            have := (hspec j).1 (by simpa using hj)
            simpa using this
          · intro d' hd' hne
            obtain ⟨sz', hsz', hs⟩ := (hspec j).2 d' (by simpa using hd') hne
            refine ⟨sz', hsz', ?_⟩
            have heq : i + 1 + j = i + (j + 1) := by omega
            rw [heq] at hs
            simpa using hs

end DimensionIndexes

/-- C5: for every variable (whose non-time file dimensions all have a known
size) and every chunk index, the chunk fetcher's slice computation yields the
full slice for the time axis and, for every other file axis `i`, the half-open
slice `[offset + chunk_index[i+o]*chunk_size_i,
min(offset + (chunk_index[i+o]+1)*chunk_size_i, offset + axis_length))`,
where `offset` is the bbox-trim lower offset of that axis (0 if untrimmed)
and `o` is 1 when time was prepended as an extra first dimension of the chunk
index (i.e. when the chunk index is longer than `file_chunk_sizes`),
else 0. -/
theorem c5_dimension_indexes (varDimensions : List String)
    (chunkSizes : List Nat) (dims : String → Option Nat)
    (offs : String → Nat) (chunkIndex : List Nat)
    (hsome : ∀ d ∈ varDimensions, d ≠ "time" → (dims d).isSome = true) :
    ∃ slices,
      getDimensionIndexesForChunk varDimensions chunkSizes dims offs chunkIndex =
        Except.ok slices ∧
      slices.length = varDimensions.length ∧
      ∀ j : Nat,
        (varDimensions.get? j = some "time" →
          slices.get? j = some PySlice.full) ∧
        (∀ d, varDimensions.get? j = some d → d ≠ "time" →
          ∃ sz, dims d = some sz ∧
            slices.get? j = some (PySlice.bounded
              (offs d + chunkIndex.getD
                (j + if chunkIndex.length > chunkSizes.length then 1 else 0) 0 *
                chunkSizes.getD j 0)
              (min (offs d + (chunkIndex.getD
                  (j + if chunkIndex.length > chunkSizes.length then 1 else 0) 0 + 1) *
                  chunkSizes.getD j 0)
                (offs d + sz)))) := by
  obtain ⟨slices, h1, h2, h3⟩ :=
    dimIndexesLoop_spec dims offs chunkSizes chunkIndex
      (if chunkIndex.length > chunkSizes.length then 1 else 0)
      varDimensions 0 hsome
  refine ⟨slices, h1, h2, ?_⟩
  intro j
  have := h3 j
  simpa using this

/-- Witness for C5 at the spec's concrete example: variable `O3_vmr` with
file dimensions `(time, air_pressure, lat, lon)`, file chunk sizes
`(1, 17, 90, 180)`, dimension sizes `air_pressure=17, lat=180, lon=360`,
no bbox trim, chunk index `(5,0,0,0)`: slices
`(full, [0:17), [0:90), [0:180))`. -/
theorem c5_dimension_indexes_witness :
    getDimensionIndexesForChunk ["time", "air_pressure", "lat", "lon"]
      [1, 17, 90, 180]
      (fun d => if d = "air_pressure" then some 17
        else if d = "lat" then some 180
        else if d = "lon" then some 360 else none)
      (fun _ => 0) [5, 0, 0, 0] =
      Except.ok [PySlice.full, PySlice.bounded 0 17, PySlice.bounded 0 90,
        PySlice.bounded 0 180] := by
  obtain ⟨slices, h1, h2, h3⟩ :=
    c5_dimension_indexes ["time", "air_pressure", "lat", "lon"]
      [1, 17, 90, 180]
      (fun d => if d = "air_pressure" then some 17
        else if d = "lat" then some 180
        else if d = "lon" then some 360 else none)
      (fun _ => 0) [5, 0, 0, 0]
      (by
        intro d hd hne
        fin_cases hd <;> simp_all)
  rw [h1]
  congr 1
  have e0 := (h3 0).1 rfl
  have e1 := (h3 1).2 "air_pressure" rfl (by decide)
  have e2 := (h3 2).2 "lat" rfl (by decide)
  have e3 := (h3 3).2 "lon" rfl (by decide)
  obtain ⟨sz1, hsz1, hs1⟩ := e1
  obtain ⟨sz2, hsz2, hs2⟩ := e2
  obtain ⟨sz3, hsz3, hs3⟩ := e3
  simp only [if_pos rfl] at hsz1
  rw [if_neg (by decide), if_pos rfl] at hsz2
  rw [if_neg (by decide), if_neg (by decide), if_pos rfl] at hsz3
  have hsz1' : sz1 = 17 := by injection hsz1.symm
  have hsz2' : sz2 = 180 := by injection hsz2.symm
  have hsz3' : sz3 = 360 := by injection hsz3.symm
  subst hsz1' hsz2' hsz3'
  norm_num at hs1 hs2 hs3 e0
  have hlen : slices.length = 4 := by simpa using h2
  apply List.ext_get?
  intro n
  match n with
  | 0 => simpa using e0
  | 1 => simpa using hs1
  | 2 => simpa using hs2
  | 3 => simpa using hs3
  | n + 4 =>
    rw [List.get?_eq_none.mpr (by omega), List.get?_eq_none.mpr (by simp)]

section MonthlyTimeRanges

/-!
## `CciChunkStore.get_time_ranges`, monthly branch (chunkstore.py lines 750-783)

```python
elif time_period == 'month' or time_period == 'mon':
    start_time = datetime(year=start_time.year, month=start_time.month, day=1)
    end_time = datetime(year=end_time.year, month=end_time.month, day=1)
    delta = relativedelta(months=+1)
    end_time += delta
...
request_time_ranges = []
this = start_time
while this < end_time:
    next = this + delta
    ...
    request_time_ranges.append((pd_this, pd_next))
    this = next
```

Python `datetime` values are modelled as a record of integer fields with
lexicographic comparison; month-start datetimes are represented by their
`(year, month)` pair.  The `while this < end_time` guard compares two
month-start datetimes; for the month-valid values reachable here (month in
1..12, as enforced by the `datetime` constructor) this comparison agrees
with comparing month indexes `12*year + (month-1)`, which the embedding
uses directly so that the loop's termination is structural in the index
difference.
-/

/-- A Python `datetime` value: integer fields, compared lexicographically. -/
structure PyDateTime where
  year : Int
  month : Int
  day : Int
  hour : Int
  minute : Int
  second : Int
  deriving Repr, DecidableEq

/-- Lexicographic (Python) order on `datetime` values, non-strict. -/
def pdLe (a b : PyDateTime) : Prop :=
  a.year < b.year ∨ (a.year = b.year ∧
    (a.month < b.month ∨ (a.month = b.month ∧
      (a.day < b.day ∨ (a.day = b.day ∧
        (a.hour < b.hour ∨ (a.hour = b.hour ∧
          (a.minute < b.minute ∨ (a.minute = b.minute ∧
            a.second ≤ b.second)))))))))

/-- Lexicographic (Python) order on `datetime` values, strict. -/
def pdLt (a b : PyDateTime) : Prop :=
  a.year < b.year ∨ (a.year = b.year ∧
    (a.month < b.month ∨ (a.month = b.month ∧
      (a.day < b.day ∨ (a.day = b.day ∧
        (a.hour < b.hour ∨ (a.hour = b.hour ∧
          (a.minute < b.minute ∨ (a.minute = b.minute ∧
            a.second < b.second)))))))))

instance (a b : PyDateTime) : Decidable (pdLe a b) := by
  unfold pdLe; infer_instance

instance (a b : PyDateTime) : Decidable (pdLt a b) := by
  unfold pdLt; infer_instance

/-- A month-start `datetime` (`datetime(year=y, month=m, day=1)`), kept as
its `(year, month)` pair. -/
structure YM where
  year : Int
  month : Int
  deriving Repr, DecidableEq

/-- Month index of a month-start datetime: `12*year + (month-1)`.  On
month-valid values this is an order isomorphism onto its image. -/
def monthIndex (d : YM) : Int := 12 * d.year + (d.month - 1)

/-- Month-validity: what `datetime(year=..., month=..., day=1)` enforces
about the month field. -/
def validYM (d : YM) : Prop := 1 ≤ d.month ∧ d.month ≤ 12

/-- Effect of `relativedelta(months=+1)` on a month-start datetime with a
month-valid field. -/
def addMonth (d : YM) : YM :=
  if d.month = 12 then ⟨d.year + 1, 1⟩ else ⟨d.year, d.month + 1⟩

theorem monthIndex_addMonth (d : YM) :
    monthIndex (addMonth d) = monthIndex d + 1 := by
  unfold addMonth monthIndex
  by_cases h : d.month = 12 <;> simp [h] <;> omega

theorem validYM_addMonth (d : YM) (h : validYM d) : validYM (addMonth d) := by
  unfold addMonth validYM at *
  by_cases h12 : d.month = 12 <;> simp [h12] <;> omega

theorem monthIndex_inj_on_valid (a b : YM) (ha : validYM a) (hb : validYM b)
    (h : monthIndex a = monthIndex b) : a = b := by
  obtain ⟨ay, am⟩ := a
  obtain ⟨by_, bm⟩ := b
  unfold monthIndex validYM at *
  simp only at ha hb h ⊢
  have hm : am = bm := by omega
  subst hm
  have hy : ay = by_ := by omega
  subst hy
  rfl

/-- The `while this < end_time` loop of the monthly branch: emit
`(this, this + 1 month)` windows until `end_time` is reached. -/
def genMonthlyWindows (s e : YM) : List (YM × YM) :=
  if monthIndex s < monthIndex e then
    (s, addMonth s) :: genMonthlyWindows (addMonth s) e
  else []
termination_by (monthIndex e - monthIndex s).toNat
decreasing_by
  rw [monthIndex_addMonth]
  omega

/-- Embeds the monthly (`month`/`mon` DRS frequency) branch of
`CciChunkStore.get_time_ranges`: align the request down to month starts,
extend the end by one month, then emit consecutive one-month windows. -/
def getTimeRangesMonth (t0 t1 : PyDateTime) : List (YM × YM) :=
  genMonthlyWindows ⟨t0.year, t0.month⟩ (addMonth ⟨t1.year, t1.month⟩)

theorem genMonthlyWindows_spec :
    ∀ (n : Nat) (s e : YM), (monthIndex e - monthIndex s).toNat = n →
    monthIndex s < monthIndex e →
    genMonthlyWindows s e ≠ [] ∧
    (genMonthlyWindows s e).head? = some (s, addMonth s) ∧
    (∀ w ∈ genMonthlyWindows s e, w.2 = addMonth w.1) ∧
    List.Chain' (fun a b : YM × YM => b.1 = a.2) (genMonthlyWindows s e) ∧
    ((genMonthlyWindows s e).getLast?).map (fun w => monthIndex w.2) =
      some (monthIndex e) ∧
    (∀ w ∈ genMonthlyWindows s e, validYM s → validYM w.1 ∧ validYM w.2) ∧
    (monthIndex e = monthIndex s + 1 →
      genMonthlyWindows s e = [(s, addMonth s)]) := by
  intro n
  induction n with
  | zero =>
    intro s e h0 hlt
    omega
  | succ n ih =>
    intro s e hn hlt
    have hunf : genMonthlyWindows s e =
        (s, addMonth s) :: genMonthlyWindows (addMonth s) e := by
      rw [genMonthlyWindows, if_pos hlt]
    by_cases hstep : monthIndex (addMonth s) < monthIndex e
    · have hn' : (monthIndex e - monthIndex (addMonth s)).toNat = n := by
        rw [monthIndex_addMonth]; omega
      obtain ⟨hne, hhd, hone, hchain, hlast, hvalid, _⟩ := ih (addMonth s) e hn' hstep
      refine ⟨by rw [hunf]; simp, by rw [hunf]; rfl, ?_, ?_, ?_, ?_, ?_⟩
      · intro w hw
        rw [hunf] at hw
        rcases List.mem_cons.mp hw with h | h
        · subst h; rfl
        · exact hone w h
      · rw [hunf]
        refine List.chain'_cons'.mpr ⟨?_, hchain⟩
        intro y hy
        have := hhd
        rw [this] at hy
        injection hy with hy'
        rw [← hy']
      · rw [hunf]
        cases htail : genMonthlyWindows (addMonth s) e with
        | nil => exact absurd htail hne
        | cons b l' =>
          rw [htail] at hlast
          rw [List.getLast?_cons_cons]
          exact hlast
      · intro w hw hvs
        rw [hunf] at hw
        rcases List.mem_cons.mp hw with h | h
        · subst h; exact ⟨hvs, validYM_addMonth _ hvs⟩
        · exact hvalid w h (validYM_addMonth _ hvs)
      · intro habs
        rw [monthIndex_addMonth] at hstep
        omega
    · have hstop : genMonthlyWindows (addMonth s) e = [] := by
        rw [genMonthlyWindows, if_neg hstep]
      have hidx : monthIndex e = monthIndex s + 1 := by
        rw [monthIndex_addMonth] at hstep
        omega
      rw [hunf, hstop]
      refine ⟨by simp, rfl, ?_, by simp, ?_, ?_, fun _ => rfl⟩
      · intro w hw
        simp at hw
        subst hw
        rfl
      · simp [monthIndex_addMonth, hidx]
      · intro w hw hvs
        simp at hw
        subst hw
        exact ⟨hvs, validYM_addMonth _ hvs⟩

theorem pdLe_monthIndex (t0 t1 : PyDateTime)
    (h0 : 1 ≤ t0.month ∧ t0.month ≤ 12) (h1 : 1 ≤ t1.month ∧ t1.month ≤ 12)
    (hle : pdLe t0 t1) :
    monthIndex ⟨t0.year, t0.month⟩ ≤ monthIndex ⟨t1.year, t1.month⟩ := by
  unfold pdLe at hle
  unfold monthIndex
  rcases hle with h | ⟨hy, h⟩
  · simp only
    omega
  · rcases h with h | ⟨hm, _⟩ <;> simp only <;> omega

end MonthlyTimeRanges

/-- C6: for every dataset whose DRS frequency field is `month` (or `mon`) and
every requested time range `(t0, t1)` with `t0 ≤ t1` (month fields valid),
`get_time_ranges` emits consecutive month-aligned windows
`[month-start, next month-start)` that cover the request: the list is
nonempty, starts at `month-start(t0)`, each window spans exactly one month,
consecutive windows abut, the final window ends at `month-start(t1) + 1
month` (which is strictly after `t1`), and the first window start is at or
before `t0`; in particular when `t0` and `t1` fall in the same month
(e.g. `t0 = t1`), exactly the one window
`[month-start(t0), month-start(t0) + 1 month)` is emitted. -/
theorem c6_monthly_windows (t0 t1 : PyDateTime)
    (h0 : 1 ≤ t0.month ∧ t0.month ≤ 12) (h1 : 1 ≤ t1.month ∧ t1.month ≤ 12)
    (hday : 1 ≤ t0.day ∧ 0 ≤ t0.hour ∧ 0 ≤ t0.minute ∧ 0 ≤ t0.second)
    (hle : pdLe t0 t1) :
    getTimeRangesMonth t0 t1 ≠ [] ∧
    (getTimeRangesMonth t0 t1).head? =
      some (⟨t0.year, t0.month⟩, addMonth ⟨t0.year, t0.month⟩) ∧
    (∀ w ∈ getTimeRangesMonth t0 t1, w.2 = addMonth w.1) ∧
    List.Chain' (fun a b : YM × YM => b.1 = a.2) (getTimeRangesMonth t0 t1) ∧
    ((getTimeRangesMonth t0 t1).getLast?).map Prod.snd =
      some (addMonth ⟨t1.year, t1.month⟩) ∧
    pdLe ⟨t0.year, t0.month, 1, 0, 0, 0⟩ t0 ∧
    pdLt t1 ⟨(addMonth ⟨t1.year, t1.month⟩).year,
      (addMonth ⟨t1.year, t1.month⟩).month, 1, 0, 0, 0⟩ ∧
    (t0.year = t1.year ∧ t0.month = t1.month →
      getTimeRangesMonth t0 t1 =
        [(⟨t0.year, t0.month⟩, addMonth ⟨t0.year, t0.month⟩)]) := by
  have hmle := pdLe_monthIndex t0 t1 h0 h1 hle
  have hlt : monthIndex ⟨t0.year, t0.month⟩ <
      monthIndex (addMonth ⟨t1.year, t1.month⟩) := by
    rw [monthIndex_addMonth]; omega
  obtain ⟨hne, hhd, hone, hchain, hlast, hvalid, hsingle⟩ :=
    genMonthlyWindows_spec
      (monthIndex (addMonth ⟨t1.year, t1.month⟩) -
        monthIndex ⟨t0.year, t0.month⟩).toNat
      ⟨t0.year, t0.month⟩ (addMonth ⟨t1.year, t1.month⟩) rfl hlt
  refine ⟨hne, hhd, hone, hchain, ?_, ?_, ?_, ?_⟩
  · have hw' : (genMonthlyWindows ⟨t0.year, t0.month⟩
        (addMonth ⟨t1.year, t1.month⟩)).getLast? =
        some ((genMonthlyWindows ⟨t0.year, t0.month⟩
          (addMonth ⟨t1.year, t1.month⟩)).getLast hne) :=
      List.getLast?_eq_getLast_of_ne_nil hne
    rw [getTimeRangesMonth]
    rw [hw'] at hlast ⊢
    simp only [Option.map_some'] at hlast ⊢
    injection hlast with hlast'
    have hwmem := List.getLast_mem hne
    have hv := hvalid _ hwmem (by exact ⟨h0.1, h0.2⟩)
    have hv2 : validYM (addMonth ⟨t1.year, t1.month⟩) :=
      validYM_addMonth _ ⟨h1.1, h1.2⟩
    congr 1
    exact monthIndex_inj_on_valid _ _ hv.2 hv2 hlast'
  · unfold pdLe
    dsimp only
    omega
  · unfold pdLt addMonth
    by_cases h12 : t1.month = (12 : Int)
    · rw [if_pos h12]
      dsimp only
      omega
    · rw [if_neg h12]
      dsimp only
      omega
  · intro ⟨hy, hm⟩
    apply hsingle
    rw [monthIndex_addMonth, hy, hm]

/-- Witness for C6 at the concrete empty-range request `t0 = t1 =`
2010-02-10T00:00:00 on a monthly dataset: exactly one window
`[2010-02-01, 2010-03-01)` is emitted. -/
theorem c6_monthly_windows_witness :
    getTimeRangesMonth ⟨2010, 2, 10, 0, 0, 0⟩ ⟨2010, 2, 10, 0, 0, 0⟩ =
      [(⟨2010, 2⟩, ⟨2010, 3⟩)] := by
  have h := (c6_monthly_windows ⟨2010, 2, 10, 0, 0, 0⟩ ⟨2010, 2, 10, 0, 0, 0⟩
    (by norm_num) (by norm_num) (by norm_num)
    (by unfold pdLe; dsimp only; omega)).2.2.2.2.2.2.2 ⟨rfl, rfl⟩
  rw [h]
  norm_num [addMonth]

section RetryClient

/-!
## `CciOdp.get_response` (cciodp.py lines 1181-1207)

```python
async def get_response(self, session, url):
    num_retries = self._num_retries
    retry_backoff_max = self._retry_backoff_max  # ms
    retry_backoff_base = self._retry_backoff_base
    response = None
    for i in range(num_retries):
        resp = await session.request(method='GET', url=url)
        if resp.status == 200:
            return resp
        elif 500 <= resp.status < 600:
            continue
        elif resp.status == 429:
            retry_min = int(response.headers.get('Retry-After', '100'))
            retry_backoff = random.random() * retry_backoff_max
            retry_total = retry_min + retry_backoff
            ...
            time.sleep(retry_total / 1000.0)
            retry_backoff_max *= retry_backoff_base
        else:
            break
    return None
```

The `429` branch reads `response.headers` but the local variable `response`
is assigned `None` once and never rebound (the freshly fetched response is
named `resp`), so the attribute access raises `AttributeError` before any
sleep or retry happens.  The session is modelled as a function from
attempt number to the response of that attempt; responses carry their
status, `Retry-After` header, and body.  The sleep duration and the random
backoff need no model because the exception precedes their use on every
path that would touch them.
-/

/-- An HTTP response as seen by `get_response`: status code, optional
`Retry-After` header value, and body. -/
structure HttpResponse where
  status : Nat
  retryAfter : Option Nat
  body : List Nat
  deriving Repr, DecidableEq

/-- The result of `get_response`: Python returns either a response object
or `None`, or lets an exception propagate. -/
def getResponseLoop (responses : Nat → HttpResponse) :
    Nat → Nat → Except PyExc (Option HttpResponse)
  | _, 0 => Except.ok none
  | i, remaining + 1 =>
    let resp := responses i
    if resp.status = 200 then Except.ok (some resp)
    else if 500 ≤ resp.status ∧ resp.status < 600 then
      getResponseLoop responses (i + 1) remaining
    else if resp.status = 429 then
      Except.error PyExc.attributeError
    else
      Except.ok none

/-- Embeds `CciOdp.get_response`: iterate over at most `numRetries`
attempts; 200 returns the response, 5xx retries immediately, 429 reaches
`response.headers` with `response = None` and raises `AttributeError`,
anything else breaks out and returns `None`. -/
def getResponse (numRetries : Nat) (responses : Nat → HttpResponse) :
    Except PyExc (Option HttpResponse) :=
  getResponseLoop responses 0 numRetries

/-- The default `num_retries` (constants.py `DEFAULT_NUM_RETRIES = 200`). -/
def DEFAULT_NUM_RETRIES : Nat := 200

/-- The concrete session of the claim: the first GET returns 429 with
`Retry-After: 200`, every later GET returns 200 with a nonempty body. -/
def session429Then200 : Nat → HttpResponse :=
  fun i => if i = 0 then ⟨429, some 200, []⟩ else ⟨200, none, [7, 7]⟩

end RetryClient

/-- C2 (code bug): on the session whose first response is status 429 (with
`Retry-After: 200`) and whose second response is status 200, `get_response`
with the default retry count raises `AttributeError` instead of sleeping and
returning the successful second response: the 429 branch reads
`response.headers` where the local `response` is permanently `None` (the
fetched response is named `resp`).  The claim's sleep-then-retry behaviour
is unreachable for every 429 response. -/
theorem c2_get_response_429_raises :
    getResponse DEFAULT_NUM_RETRIES session429Then200 =
      Except.error PyExc.attributeError ∧
    getResponse DEFAULT_NUM_RETRIES session429Then200 ≠
      Except.ok (some (session429Then200 1)) := by
  constructor
  · rfl
  · intro h
    have h' : (Except.error PyExc.attributeError :
        Except PyExc (Option HttpResponse)) =
        Except.ok (some (session429Then200 1)) := by
      rw [← h]; rfl
    exact Except.noConfusion h'

section FeatureList

/-!
## `CciOdp._get_feature_list` (cciodp.py lines 746-782)

```python
async def _get_feature_list(self, session, request):
    ...
    feature_list = []
    if ds_id not in self._features or len(self._features[ds_id]) == 0:
        self._features[ds_id] = []
        await self._fetch_opensearch_feature_list(..., feature_list, ...)
        if len(feature_list) == 0:
            # try without dates. For some data sets, this works better
            request.pop('startDate'); request.pop('endDate')
            await self._fetch_opensearch_feature_list(..., feature_list, ...)
            feature_list.sort(key=lambda x: x[0])
        self._features[ds_id] = feature_list
        return self._features[ds_id]
    else:
        if start_date < self._features[ds_id][0][0]:
            ... fetch ...; feature_list.sort(key=lambda x: x[0])
            self._features[ds_id] = feature_list + self._features[ds_id]
        if end_date > self._features[ds_id][-1][1]:
            ... fetch ...; feature_list.sort(key=lambda x: x[0])
            self._features[ds_id] = self._features[ds_id] + feature_list
    start = bisect.bisect_left([f[0] for f in self._features[ds_id]], start_date)
    end = bisect.bisect_right([f[1] for f in self._features[ds_id]], end_date)
    return self._features[ds_id][start:end]
```

Note that the `feature_list.sort(...)` after the *first* fetch happens only
inside the `len(feature_list) == 0` fallback branch: when the initial
query returns a nonempty list it is stored in server order, unsorted.

The network fetches are modelled by passing, as explicit arguments, the
feature lists that the four possible `_fetch_opensearch_feature_list`
calls would deliver (in server order).  Granule times are integers,
`list.sort` is a stable sort on the start time, and the final slice is
`drop`/`take`.  The `[-1]` index of the extension branch is modelled with
`getLastD` (its list is provably nonempty on that path).
-/

/-- A granule entry `(t_start, t_end, opendap_url)`. -/
def Feature := Int × Int × String

instance : DecidableEq Feature := by
  unfold Feature; infer_instance

/-- Stable sort on granule start time (`feature_list.sort(key=lambda x: x[0])`). -/
def sortFeatures (l : List Feature) : List Feature :=
  l.mergeSort (fun a b => decide (a.1 ≤ b.1))

/-- Embeds `CciOdp._get_feature_list` for one dataset.  `stored` is the
cached `self._features[ds_id]` (empty list also stands for the id being
absent), `fp`/`fnd`/`fpre`/`fapp` are the feature lists that the primary,
no-dates-fallback, prepend-extension and append-extension fetches would
return, in server order.  Returns the updated cache and the returned
sublist. -/
def getFeatureList (stored : List Feature) (startDate endDate : Int)
    (fp fnd fpre fapp : List Feature) : List Feature × List Feature :=
  match stored with
  | [] =>
    let fl := if fp = [] then sortFeatures fnd else fp
    (fl, fl)
  | f0 :: rest =>
    let stored := f0 :: rest
    let st1 := if startDate < f0.1 then sortFeatures fpre ++ stored else stored
    let st2 := if endDate > (st1.getLastD (0, 0, "")).2.1 then
      st1 ++ sortFeatures fapp else st1
    let s := bisect_left (st2.map (fun f => f.1)) startDate
    let e := bisect_right (st2.map (fun f => f.2.1)) endDate
    (st2, (st2.drop s).take (e - s))

end FeatureList

/-- C3 (code bug): when the first granule-index query returns a nonempty
feature list, `_get_feature_list` stores it in server order without sorting
(the `sort` call is inside the empty-fallback branch only), so with the
server returning `[(20,21),(10,11)]` the stored per-dataset granule list is
`[(20,21),(10,11)]`: neither sorted in non-decreasing start order nor
strictly increasing in start times, although the spec's invariant (and the
bisecting lookup the function itself performs on the stored list) requires
sortedness.  The other three fetch paths do sort. -/
theorem c3_feature_list_first_query_unsorted :
    (getFeatureList [] 0 100 [(20, 21, "u2"), (10, 11, "u1")] [] [] []).1 =
      [(20, 21, "u2"), (10, 11, "u1")] ∧
    ¬ List.Chain' (fun a b : Feature => a.1 ≤ b.1)
      (getFeatureList [] 0 100 [(20, 21, "u2"), (10, 11, "u1")] [] [] []).1 ∧
    ¬ List.Chain' (fun a b : Feature => a.1 < b.1)
      (getFeatureList [] 0 100 [(20, 21, "u2"), (10, 11, "u1")] [] [] []).1 := by
  refine ⟨rfl, ?_, ?_⟩ <;> intro h <;>
    exact absurd (List.chain'_cons.mp h).1 (by decide)

section CoordTrimming

/-!
## Bbox coordinate trimming (chunkstore.py lines 136-161, 305-320)

```python
if bbox is not None and (coord_name == 'lat' or coord_name == 'latitude'):
    if coord_data[0] < coord_data[-1]:
        lat_min_offset = bisect.bisect_left(coord_data, bbox[1])
        lat_max_offset = bisect.bisect_right(coord_data, bbox[3])
    else:
        lat_min_offset = len(coord_data) - bisect.bisect_left(coord_data[::-1], bbox[3])
        lat_max_offset = len(coord_data) - bisect.bisect_right(coord_data[::-1], bbox[1])
    ...
elif bbox is not None and (coord_name == 'lon' or coord_name == 'longitude'):
    lon_min_offset = bisect.bisect_left(coord_data, bbox[0])
    lon_max_offset = bisect.bisect_right(coord_data, bbox[2])
```

`_adjust_coord_data` then keeps `coord_data[min_offset:max_offset]`, i.e.
the indexes `i` with `min_offset ≤ i < max_offset`.  Coordinate values are
floats compared only by order; they are modelled as integers (every
`bisect` decision depends on comparisons alone).  The empty-array case
(an `IndexError` on `coord_data[0]` in Python) is excluded by the
theorems' hypotheses.
-/

/-- Embeds the latitude offset computation: ascending arrays are bisected
directly with `(bbox_lat_min, bbox_lat_max)`, otherwise the array is
reversed and the two bounds swap roles. -/
def latOffsets (coord : List Int) (latMin latMax : Int) : Nat × Nat :=
  if coord.getD 0 0 < coord.getD (coord.length - 1) 0 then
    (bisect_left coord latMin, bisect_right coord latMax)
  else
    (coord.length - bisect_left coord.reverse latMax,
     coord.length - bisect_right coord.reverse latMin)

/-- Embeds the longitude offset computation (no descending branch in the
source). -/
def lonOffsets (coord : List Int) (lonMin lonMax : Int) : Nat × Nat :=
  (bisect_left coord lonMin, bisect_right coord lonMax)

theorem takeWhile_length_iff (p : Int → Bool) :
    ∀ (l : List Int),
      (∀ i j (hi : i < l.length) (hj : j < l.length), i ≤ j →
        p (l.get ⟨j, hj⟩) = true → p (l.get ⟨i, hi⟩) = true) →
      ∀ (i : Nat) (h : i < l.length),
        (i < (l.takeWhile p).length ↔ p (l.get ⟨i, h⟩) = true) := by
  intro l
  induction l with
  | nil => intro _ i h; exact absurd h (by simp)
  | cons a t ih =>
    intro hmono i h
    by_cases hpa : p a = true
    · rw [List.takeWhile_cons, if_pos hpa]
      match i with
      | 0 => simpa using hpa
      | i + 1 =>
        have hmono' : ∀ i j (hi : i < t.length) (hj : j < t.length), i ≤ j →
            p (t.get ⟨j, hj⟩) = true → p (t.get ⟨i, hi⟩) = true := by
          intro i j hi hj hij hp
          have := hmono (i + 1) (j + 1) (by simpa using hi) (by simpa using hj)
            (by omega) (by simpa using hp)
          simpa using this
        have hlt : i < t.length := by simpa using h
        have := ih hmono' i hlt
        simp only [List.length_cons, Nat.add_lt_add_iff_right]
        rw [show ((a :: t).get ⟨i + 1, h⟩) = t.get ⟨i, hlt⟩ from rfl]
        simpa using this
    · rw [List.takeWhile_cons, if_neg hpa]
      simp only [List.length_nil, Nat.not_lt_zero, false_iff]
      match i with
      | 0 => simpa using hpa
      | i + 1 =>
        intro hp
        exact hpa (hmono 0 (i + 1) (by simp) h (by omega) hp)

theorem lt_bisect_left_iff (l : List Int) (hs : List.Pairwise (· ≤ ·) l)
    (x : Int) (i : Nat) (h : i < l.length) :
    i < bisect_left l x ↔ l.get ⟨i, h⟩ < x := by
  unfold bisect_left
  rw [takeWhile_length_iff _ l ?_ i h]
  · simp
  · intro i j hi hj hij hp
    simp only [decide_eq_true_eq] at hp ⊢
    rcases Nat.lt_or_ge i j with hij' | hij'
    · exact lt_of_le_of_lt (List.pairwise_iff_get.mp hs ⟨i, hi⟩ ⟨j, hj⟩ hij') hp
    · have : i = j := by omega
      subst this
      exact hp

theorem lt_bisect_right_iff (l : List Int) (hs : List.Pairwise (· ≤ ·) l)
    (x : Int) (i : Nat) (h : i < l.length) :
    i < bisect_right l x ↔ l.get ⟨i, h⟩ ≤ x := by
  unfold bisect_right
  rw [takeWhile_length_iff _ l ?_ i h]
  · simp
  · intro i j hi hj hij hp
    simp only [decide_eq_true_eq] at hp ⊢
    rcases Nat.lt_or_ge i j with hij' | hij'
    · exact le_trans (List.pairwise_iff_get.mp hs ⟨i, hi⟩ ⟨j, hj⟩ hij') hp
    · have : i = j := by omega
      subst this
      exact hp

theorem takeWhile_length_le (p : Int → Bool) :
    ∀ l : List Int, (l.takeWhile p).length ≤ l.length := by
  intro l
  induction l with
  | nil => simp
  | cons a t ih =>
    rw [List.takeWhile_cons]
    by_cases h : p a = true
    · rw [if_pos h]
      simpa using ih
    · rw [if_neg h]
      simp

theorem bisect_left_le_length (l : List Int) (x : Int) :
    bisect_left l x ≤ l.length := by
  unfold bisect_left
  exact takeWhile_length_le _ _

theorem bisect_right_le_length (l : List Int) (x : Int) :
    bisect_right l x ≤ l.length := by
  unfold bisect_right
  exact takeWhile_length_le _ _

end CoordTrimming

theorem get_reverse_eq (l : List Int) (i j : Nat) (hi : i < l.length)
    (hj : j < l.reverse.length) (hij : i + j + 1 = l.length) :
    l.reverse.get ⟨j, hj⟩ = l.get ⟨i, hi⟩ := by
  have h1 : l.reverse.get ⟨j, hj⟩ = l.reverse[j] := rfl
  have h2 : l.get ⟨i, hi⟩ = l[i] := rfl
  rw [h1, h2, List.getElem_reverse]
  congr 1
  omega

theorem asc_slice_iff (coord : List Int) (lo hi : Int)
    (hs : List.Pairwise (· < ·) coord) (i : Nat) (h : i < coord.length) :
    (bisect_left coord lo ≤ i ∧ i < bisect_right coord hi) ↔
      (lo ≤ coord.get ⟨i, h⟩ ∧ coord.get ⟨i, h⟩ ≤ hi) := by
  have hle : List.Pairwise (· ≤ ·) coord := hs.imp (fun hab => le_of_lt hab)
  have h1 := lt_bisect_left_iff coord hle lo i h
  have h2 := lt_bisect_right_iff coord hle hi i h
  constructor
  · rintro ⟨ha, hb⟩
    refine ⟨?_, h2.mp hb⟩
    by_contra hcon
    push_neg at hcon
    have := h1.mpr hcon
    omega
  · rintro ⟨ha, hb⟩
    refine ⟨?_, h2.mpr hb⟩
    by_contra hcon
    push_neg at hcon
    have := h1.mp hcon
    omega

theorem desc_slice_iff (coord : List Int) (lo hi : Int)
    (hs : List.Pairwise (fun a b : Int => b < a) coord)
    (i : Nat) (h : i < coord.length) :
    (coord.length - bisect_left coord.reverse hi ≤ i ∧
        i < coord.length - bisect_right coord.reverse lo) ↔
      (lo < coord.get ⟨i, h⟩ ∧ coord.get ⟨i, h⟩ < hi) := by
  have hrev : List.Pairwise (· ≤ ·) coord.reverse := by
    rw [List.pairwise_reverse]
    exact hs.imp (fun hab => le_of_lt hab)
  have hj : coord.length - 1 - i < coord.reverse.length := by
    simp only [List.length_reverse]
    omega
  have hgr : coord.reverse.get ⟨coord.length - 1 - i, hj⟩ = coord.get ⟨i, h⟩ :=
    get_reverse_eq coord i (coord.length - 1 - i) h hj (by omega)
  have h1 := lt_bisect_left_iff coord.reverse hrev hi (coord.length - 1 - i) hj
  have h2 := lt_bisect_right_iff coord.reverse hrev lo (coord.length - 1 - i) hj
  rw [hgr] at h1 h2
  have hbl : bisect_left coord.reverse hi ≤ coord.length := by
    have := bisect_left_le_length coord.reverse hi
    simpa using this
  have hbr : bisect_right coord.reverse lo ≤ coord.length := by
    have := bisect_right_le_length coord.reverse lo
    simpa using this
  constructor
  · rintro ⟨ha, hb⟩
    constructor
    · by_contra hcon
      push_neg at hcon
      have := h2.mpr hcon
      omega
    · have : coord.length - 1 - i < bisect_left coord.reverse hi := by omega
      exact h1.mp this
  · rintro ⟨ha, hb⟩
    have hh1 := h1.mpr hb
    have hh2 : ¬ (coord.length - 1 - i < bisect_right coord.reverse lo) := by
      intro hcon
      have := h2.mp hcon
      omega
    omega

theorem desc_branch_not_taken (coord : List Int)
    (hs : List.Pairwise (fun a b : Int => b < a) coord) :
    ¬ (coord.getD 0 0 < coord.getD (coord.length - 1) 0) := by
  match coord with
  | [] => simp
  | [a] => simp
  | a :: b :: t =>
    have hlen : 0 < (a :: b :: t).length := by simp
    have hlast : (a :: b :: t).length - 1 < (a :: b :: t).length := by simp
    have hgt := List.pairwise_iff_get.mp hs ⟨0, hlen⟩
      ⟨(a :: b :: t).length - 1, hlast⟩ (by simp [Fin.lt_def])
    rw [List.getD_eq_getElem _ _ hlen, List.getD_eq_getElem _ _ hlast]
    simp only [List.get_eq_getElem] at hgt
    omega

theorem asc_branch_taken (coord : List Int) (hlen : 2 ≤ coord.length)
    (hs : List.Pairwise (· < ·) coord) :
    coord.getD 0 0 < coord.getD (coord.length - 1) 0 := by
  have h0 : 0 < coord.length := by omega
  have hlast : coord.length - 1 < coord.length := by omega
  have hlt := List.pairwise_iff_get.mp hs ⟨0, h0⟩
    ⟨coord.length - 1, hlast⟩ (by simp [Fin.lt_def]; omega)
  rw [List.getD_eq_getElem _ _ h0, List.getD_eq_getElem _ _ hlast]
  simpa using hlt

/-- C4 counterexample: the strictly descending latitude array `[30, 20, 10]`
with bbox latitude range `[10, 30]` keeps only index 1 (`latOffsets = (1,2)`),
excluding index 0 although `coord[0] = 30 ∈ [10, 30]`, so the trimmed set is
not `{i : coord[i] ∈ [B_lo, B_hi]}`. -/
theorem c4_coord_trimming_counterexample :
    latOffsets [30, 20, 10] 10 30 = (1, 2) ∧
    ¬ ((latOffsets [30, 20, 10] 10 30).1 ≤ 0 ∧
        0 < (latOffsets [30, 20, 10] 10 30).2) ∧
    10 ≤ ([30, 20, 10] : List Int).get ⟨0, by decide⟩ ∧
    ([30, 20, 10] : List Int).get ⟨0, by decide⟩ ≤ 30 := by
  refine ⟨?_, ?_, by decide, by decide⟩ <;> decide

/-- C4 (amended): for a strictly ascending latitude or longitude coordinate
(with at least 2 entries for latitude, so that the `coord[0] < coord[-1]`
branch test recognises it), the bbox trim keeps exactly the indices with
`coord[i] ∈ [B_lo, B_hi]`, both bounds inclusive; for a strictly descending
latitude coordinate it keeps exactly the indices with
`coord[i] ∈ (B_lo, B_hi)`, both bounds exclusive. -/
theorem c4_coord_trimming (coord : List Int) (lo hi : Int) (i : Nat)
    (h : i < coord.length) :
    (2 ≤ coord.length → List.Pairwise (· < ·) coord →
      (((latOffsets coord lo hi).1 ≤ i ∧ i < (latOffsets coord lo hi).2) ↔
        (lo ≤ coord.get ⟨i, h⟩ ∧ coord.get ⟨i, h⟩ ≤ hi))) ∧
    (List.Pairwise (fun a b : Int => b < a) coord →
      (((latOffsets coord lo hi).1 ≤ i ∧ i < (latOffsets coord lo hi).2) ↔
        (lo < coord.get ⟨i, h⟩ ∧ coord.get ⟨i, h⟩ < hi))) ∧
    (List.Pairwise (· < ·) coord →
      (((lonOffsets coord lo hi).1 ≤ i ∧ i < (lonOffsets coord lo hi).2) ↔
        (lo ≤ coord.get ⟨i, h⟩ ∧ coord.get ⟨i, h⟩ ≤ hi))) := by
  refine ⟨?_, ?_, ?_⟩
  · intro hlen hs
    unfold latOffsets
    rw [if_pos (asc_branch_taken coord hlen hs)]
    exact asc_slice_iff coord lo hi hs i h
  · intro hs
    unfold latOffsets
    rw [if_neg (desc_branch_not_taken coord hs)]
    exact desc_slice_iff coord lo hi hs i h
  · intro hs
    unfold lonOffsets
    exact asc_slice_iff coord lo hi hs i h

/-- Witness for C4 at the ascending latitude array `[10, 20, 30]` with bbox
latitude range `[10, 30]` and index 0 (kept, inclusively), and at the
descending array `[30, 20, 10]` with the same range and index 1. -/
theorem c4_coord_trimming_witness :
    (((latOffsets [10, 20, 30] 10 30).1 ≤ 0 ∧
        0 < (latOffsets [10, 20, 30] 10 30).2) ↔
      (10 ≤ ([10, 20, 30] : List Int).get ⟨0, by decide⟩ ∧
        ([10, 20, 30] : List Int).get ⟨0, by decide⟩ ≤ 30)) ∧
    (((latOffsets [30, 20, 10] 10 30).1 ≤ 1 ∧
        1 < (latOffsets [30, 20, 10] 10 30).2) ↔
      (10 < ([30, 20, 10] : List Int).get ⟨1, by decide⟩ ∧
        ([30, 20, 10] : List Int).get ⟨1, by decide⟩ < 30)) := by
  constructor
  · exact (c4_coord_trimming [10, 20, 30] 10 30 0 (by decide)).1
      (by decide) (by decide)
  · exact (c4_coord_trimming [30, 20, 10] 10 30 1 (by decide)).2.1
      (by decide)

section VirtualFileSystem

/-!
## Virtual-file-system key handling (chunkstore.py lines 286-291, 540-564,
638-655, 669-692)

Store keys are Python strings; they are modelled as `List Char` so that the
splitting and joining the source performs on them stays fully executable.
The store state carries exactly the fields the modelled methods touch:

* `vfsKeys` — the key set of `self._vfs` (dict insertion semantics:
  re-assigning an existing key does not grow it; values are irrelevant to
  the modelled claims);
* `varRanges` — `self._var_name_to_ranges`, keyed by variable name, with a
  range tuple abbreviated by its lengths `nums = shape // chunks`;
* `rangesIndexes` — `self._ranges_to_indexes`: the *pending* chunk index
  tuples per range;
* `rangesVarNames` — `self._ranges_to_var_names`;
* `numNotInVfs` — `self._num_data_var_chunks_not_in_vfs`.
-/

/-- A Python string key, as its character list. -/
abbrev Key := List Char

/-- Dictionary lookup on an association list (`dict[k]` returning `none`
for the raised `KeyError`). -/
def alookup {α β : Type} [DecidableEq α] : List (α × β) → α → Option β
  | [], _ => none
  | p :: rest, k => if p.1 = k then some p.2 else alookup rest k

/-- Splitting on a separator character (`str.split(sep)` for a one-character
separator): always nonempty, empty segments preserved. -/
def splitOnChar (sep : Char) : List Char → List (List Char)
  | [] => [[]]
  | c :: rest =>
    let r := splitOnChar sep rest
    if c = sep then [] :: r
    else match r with
      | [] => [[c]]
      | h :: t => (c :: h) :: t

/-- Leading- and trailing-whitespace strip, as `int(str)` performs. -/
def stripWs (l : List Char) : List Char :=
  ((l.dropWhile Char.isWhitespace).reverse.dropWhile Char.isWhitespace).reverse

/-- Value of a nonempty all-digit character list. -/
def digitsToNat (l : List Char) : Nat :=
  l.foldl (fun acc c => acc * 10 + (c.toNat - 48)) 0

/-- Model of Python `int(str)`: optional surrounding whitespace, optional
sign, then decimal digits (the underscore digit-grouping accepted by Python
is not modelled; no key in the store's namespace uses it).  `none` stands
for the `ValueError` that `int` raises otherwise. -/
def pyInt? (s : List Char) : Option Int :=
  match stripWs s with
  | [] => none
  | '-' :: ds =>
    if ds ≠ [] ∧ ds.all Char.isDigit then some (-(digitsToNat ds : Int)) else none
  | '+' :: ds =>
    if ds ≠ [] ∧ ds.all Char.isDigit then some ((digitsToNat ds : Int)) else none
  | ds =>
    if ds.all Char.isDigit then some ((digitsToNat ds : Int)) else none

/-- Rendering of a (nonnegative) chunk index as `str(int)` renders it. -/
def intToChars (i : Int) : List Char :=
  if i < 0 then '-' :: Nat.toDigits 10 i.natAbs else Nat.toDigits 10 i.toNat

/-- Dict-insertion of a key (`self._vfs[key] = ...`): no growth when the key
is already present. -/
def addKey (ks : List Key) (k : Key) : List Key :=
  if k ∈ ks then ks else ks ++ [k]

/-- All chunk index tuples of a range list, in `itertools.product` order. -/
def indexTuples : List Nat → List (List Int)
  | [] => [[]]
  | n :: rest =>
    (List.range n).flatMap (fun i => (indexTuples rest).map (fun t => (i : Int) :: t))

/-- Association-list update of an existing key, preserving position (dict
re-assignment). -/
def updateAssoc {α β : Type} [BEq α] (l : List (α × β)) (key : α) (val : β) :
    List (α × β) :=
  l.map (fun p => if p.1 == key then (p.1, val) else p)

/-- The store state fields touched by the VFS key machinery. -/
structure VfsStoreState where
  vfsKeys : List Key
  varRanges : List (Key × List Nat)
  rangesIndexes : List (List Nat × List (List Int))
  rangesVarNames : List (List Nat × List Key)
  numNotInVfs : Int
  deriving Repr, DecidableEq

/-- Embeds `RemoteChunkStore._add_remote_array` (chunkstore.py lines
540-564) restricted to the modelled fields: install the three metadata
keys, compute `nums = shape // chunks`, and register the variable in the
range-sharing tables. -/
def addRemoteArray (s : VfsStoreState) (name : Key) (shape chunks : List Nat) :
    VfsStoreState :=
  let nums := List.zipWith (fun a b => a / b) shape chunks
  let ks := addKey (addKey (addKey s.vfsKeys name)
    (name ++ "/.zarray".data)) (name ++ "/.zattrs".data)
  let s := { s with vfsKeys := ks }
  let s := { s with varRanges := s.varRanges ++ [(name, nums)] }
  let s := if (alookup s.rangesIndexes nums).isSome then s
    else { s with rangesIndexes := s.rangesIndexes ++ [(nums, indexTuples nums)] }
  match alookup s.rangesVarNames nums with
  | none => { s with rangesVarNames := s.rangesVarNames ++ [(nums, [name])] }
  | some vs =>
    { s with rangesVarNames := updateAssoc s.rangesVarNames nums (vs ++ [name]) }

/-- Embeds the key footprint of `RemoteChunkStore._add_static_array`
(chunkstore.py lines 518-537): the array key, its two metadata keys and
the single all-zero chunk key. -/
def addStaticArrayKeys (s : VfsStoreState) (name : Key) (ndim : Nat) :
    VfsStoreState :=
  let ks := addKey (addKey (addKey (addKey s.vfsKeys name)
      (name ++ "/.zarray".data)) (name ++ "/.zattrs".data))
    (name ++ '/' :: List.intercalate ['.'] (List.replicate ndim ['0']))
  { s with vfsKeys := ks }

/-- Embeds the VFS construction of `RemoteChunkStore.__init__` for a store
whose data variables are given as `(name, shape, chunk_sizes)`: the static
`time`/`time_bnds` arrays, one remote array per data variable with the
counter increment `self._num_data_var_chunks_not_in_vfs += np.prod(chunk_sizes)`
of line 291, and finally the `.zgroup`/`.zattrs` entries. -/
def initStore (dataVars : List (Key × List Nat × List Nat)) : VfsStoreState :=
  let s0 : VfsStoreState := ⟨[], [], [], [], 0⟩
  let s1 := addStaticArrayKeys s0 "time".data 1
  let s2 := addStaticArrayKeys s1 "time_bnds".data 2
  let s3 := dataVars.foldl (fun s v =>
    let s' := addRemoteArray s v.1 v.2.1 v.2.2
    { s' with numNotInVfs := s'.numNotInVfs + (prodNat v.2.2 : Int) }) s2
  { s3 with vfsKeys := addKey (addKey s3.vfsKeys ".zgroup".data) ".zattrs".data }

/-- Embeds `RemoteChunkStore._try_building_vfs_entry` (chunkstore.py lines
669-685).  A key with no `/` falls through untouched; `key.split('/')` into
more than two parts raises `ValueError` (too many values to unpack); a
non-integer chunk suffix is the caught `ValueError` of the `int()` calls;
an unknown variable name (or unregistered range) raises `KeyError`; a
pending chunk index installs the chunk entry for every variable sharing
the range, decrements the counter per entry, and removes the index from
the shared pending list. -/
def tryBuildingVfsEntry (s : VfsStoreState) (key : Key) :
    Except PyExc VfsStoreState :=
  match splitOnChar '/' key with
  | [] => Except.ok s
  | [_] => Except.ok s
  | [name, part] =>
    match (splitOnChar '.' part).mapM pyInt? with
    | none => Except.ok s
    | some chunkIndexes =>
      match alookup s.varRanges name with
      | none => Except.error PyExc.keyError
      | some nums =>
        match alookup s.rangesIndexes nums with
        | none => Except.error PyExc.keyError
        | some indexes =>
          if chunkIndexes ∈ indexes then
            match alookup s.rangesVarNames nums with
            | none => Except.error PyExc.keyError
            | some varNames =>
              Except.ok { s with
                vfsKeys := varNames.foldl
                  (fun ks v => addKey ks (v ++ '/' :: part)) s.vfsKeys,
                numNotInVfs := s.numNotInVfs - varNames.length,
                rangesIndexes :=
                  updateAssoc s.rangesIndexes nums (indexes.erase chunkIndexes) }
          else Except.ok s
  | _ => Except.error PyExc.valueError

/-- Embeds `RemoteChunkStore.__contains__` (chunkstore.py lines 649-655):
a present key answers `True` immediately; otherwise the entry build is
attempted (letting its exceptions propagate) and membership is re-checked. -/
def storeContains (s : VfsStoreState) (key : Key) : Except PyExc Bool :=
  if key ∈ s.vfsKeys then Except.ok true
  else match tryBuildingVfsEntry s key with
    | Except.error e => Except.error e
    | Except.ok s' => Except.ok (decide (key ∈ s'.vfsKeys))

/-- Embeds `RemoteChunkStore._build_missing_vfs_entries` (chunkstore.py
lines 687-692): install a chunk entry for every pending index of every
variable; neither the counter nor the pending lists are touched. -/
def buildMissingVfsEntries (s : VfsStoreState) : VfsStoreState :=
  { s with vfsKeys := s.varRanges.foldl (fun ks nv =>
      ((alookup s.rangesIndexes nv.2).getD []).foldl
        (fun ks idx =>
          addKey ks (nv.1 ++ '/' :: List.intercalate ['.'] (idx.map intToChars)))
        ks) s.vfsKeys }

/-- Embeds `RemoteChunkStore.__len__` (chunkstore.py lines 644-647):
`len(self._vfs.keys()) + self._num_data_var_chunks_not_in_vfs`. -/
def storeLen (s : VfsStoreState) : Int :=
  (s.vfsKeys.length : Int) + s.numNotInVfs

/-- Embeds `RemoteChunkStore.__iter__`/`keys` (chunkstore.py lines 617-621,
638-642): build all missing entries, then hand out the keys. -/
def storeIterKeys (s : VfsStoreState) : List Key :=
  (buildMissingVfsEntries s).vfsKeys

end VirtualFileSystem

/-- C9 (code bug): in the store with the single data variable `v` of shape
`(2,4)` and chunk sizes `(2,4)` (one chunk key, `v/0.0`), the per-variable
counter is incremented by `np.prod(chunk_sizes) = 8` — the number of array
elements per chunk — instead of the number of chunk keys
`prod(shape_i // chunk_i) = 1`, so `__len__` answers 21 while `__iter__`
yields 14 distinct keys; and after the only chunk key is materialised the
counter is 7, not 0 (`_build_missing_vfs_entries` also installs keys
without decrementing it). -/
theorem c9_len_counter_bug :
    storeLen (initStore [("v".data, [2, 4], [2, 4])]) = 21 ∧
    (storeIterKeys (initStore [("v".data, [2, 4], [2, 4])])).length = 14 ∧
    (storeIterKeys (initStore [("v".data, [2, 4], [2, 4])])).Nodup ∧
    (initStore [("v".data, [2, 4], [2, 4])]).numNotInVfs = 8 ∧
    prodNat (List.zipWith (fun a b => a / b) [2, 4] [2, 4]) = 1 ∧
    ((tryBuildingVfsEntry (initStore [("v".data, [2, 4], [2, 4])])
        "v/0.0".data).toOption.map
      (fun s' => (s'.numNotInVfs, storeLen s', (storeIterKeys s').length))) =
      some (7, 21, 14) := by
  decide

theorem alookup_mem {α β : Type} [DecidableEq α] (l : List (α × β)) (k : α)
    (v : β) (h : alookup l k = some v) : (k, v) ∈ l := by
  induction l with
  | nil => exact absurd h (by simp [alookup])
  | cons p rest ih =>
    rw [alookup] at h
    by_cases hp : p.1 = k
    · rw [if_pos hp] at h
      injection h with h'
      subst h'
      subst hp
      exact List.mem_cons_self _ _
    · rw [if_neg hp] at h
      exact List.mem_cons_of_mem _ (ih h)

theorem mem_addKey_self (ks : List Key) (k : Key) : k ∈ addKey ks k := by
  unfold addKey
  by_cases h : k ∈ ks
  · rwa [if_pos h]
  · rw [if_neg h]
    simp

theorem mem_addKey_of_mem (ks : List Key) (k x : Key) (h : x ∈ ks) :
    x ∈ addKey ks k := by
  unfold addKey
  by_cases hk : k ∈ ks
  · rwa [if_pos hk]
  · rw [if_neg hk]
    simp [h]

theorem mem_foldl_addKey_of_mem (f : Key → Key) (vars : List Key)
    (ks : List Key) (x : Key) (h : x ∈ ks) :
    x ∈ vars.foldl (fun ks w => addKey ks (f w)) ks := by
  induction vars generalizing ks with
  | nil => simpa using h
  | cons w rest ih =>
    rw [List.foldl_cons]
    exact ih _ (mem_addKey_of_mem _ _ _ h)

theorem mem_foldl_addKey (f : Key → Key) (vars : List Key) (ks : List Key)
    (v : Key) (hv : v ∈ vars) :
    f v ∈ vars.foldl (fun ks w => addKey ks (f w)) ks := by
  induction vars generalizing ks with
  | nil => exact absurd hv (by simp)
  | cons w rest ih =>
    rw [List.foldl_cons]
    rcases List.mem_cons.mp hv with h | h
    · subst h
      exact mem_foldl_addKey_of_mem _ _ _ _ (mem_addKey_self _ _)
    · exact ih _ h

/-- Well-formedness of the range-sharing tables, as `__init__` establishes
it: every registered variable's range has a pending-index entry and the
variable appears in its range's name group. -/
def WFStore (s : VfsStoreState) : Prop :=
  ∀ p ∈ s.varRanges, (alookup s.rangesIndexes p.2).isSome = true ∧
    p.1 ∈ ((alookup s.rangesVarNames p.2).getD [])

instance (s : VfsStoreState) : Decidable (WFStore s) := by
  unfold WFStore
  infer_instance

/-- C10 counterexample: on a freshly opened store with data variable `v`,
`__contains__('a/b/c')` raises `ValueError` (the two-target unpacking of
`key.split('/')` fails on three parts) and `__contains__('w/0')` raises
`KeyError` (unknown variable looked up in `_var_name_to_ranges`), instead
of returning `False` as the claim states for malformed or foreign keys. -/
theorem c10_contains_counterexample :
    storeContains (initStore [("v".data, [2, 4], [2, 4])]) "a/b/c".data =
      Except.error PyExc.valueError ∧
    storeContains (initStore [("v".data, [2, 4], [2, 4])]) "w/0".data =
      Except.error PyExc.keyError := by
  exact ⟨rfl, rfl⟩

/-- C10 (amended): for every well-formed store state, `__contains__`
returns `True` for every key present in the vfs; for an absent key it
returns a boolean without raising exactly when the key either contains no
`/`, or splits into a known variable name and a chunk suffix, or has a
non-integer chunk suffix: an absent key with two or more `/` raises
`ValueError`, and an absent `<unknown-var>/<ints>` key raises `KeyError`.
For an absent key `<var>/<ints>` of a known variable the result is `True`
exactly when the parsed index tuple is among the variable's pending chunk
indexes (indexes within range and not yet materialised). -/
theorem c10_contains_characterization (s : VfsStoreState) (hwf : WFStore s)
    (key : Key) :
    (key ∈ s.vfsKeys → storeContains s key = Except.ok true) ∧
    (key ∉ s.vfsKeys → (splitOnChar '/' key).length = 1 →
      storeContains s key = Except.ok false) ∧
    (key ∉ s.vfsKeys → 3 ≤ (splitOnChar '/' key).length →
      storeContains s key = Except.error PyExc.valueError) ∧
    (∀ name part, key ∉ s.vfsKeys → splitOnChar '/' key = [name, part] →
      (splitOnChar '.' part).mapM pyInt? = none →
      storeContains s key = Except.ok false) ∧
    (∀ name part idx, key ∉ s.vfsKeys → splitOnChar '/' key = [name, part] →
      (splitOnChar '.' part).mapM pyInt? = some idx →
      alookup s.varRanges name = none →
      storeContains s key = Except.error PyExc.keyError) ∧
    (∀ name part idx nums, key ∉ s.vfsKeys → key = name ++ '/' :: part →
      splitOnChar '/' key = [name, part] →
      (splitOnChar '.' part).mapM pyInt? = some idx →
      alookup s.varRanges name = some nums →
      storeContains s key =
        Except.ok (decide (idx ∈ (alookup s.rangesIndexes nums).getD []))) := by
  refine ⟨?_, ?_, ?_, ?_, ?_, ?_⟩
  · intro hmem
    unfold storeContains
    rw [if_pos hmem]
  · intro hmem hlen
    unfold storeContains
    rw [if_neg hmem]
    match hsplit : splitOnChar '/' key with
    | [] => simp [hsplit] at hlen
    | [x] =>
      rw [tryBuildingVfsEntry, hsplit]
      simp [hmem]
    | x :: y :: rest => simp [hsplit] at hlen
  · intro hmem hlen
    unfold storeContains
    rw [if_neg hmem]
    match hsplit : splitOnChar '/' key with
    | [] => simp [hsplit] at hlen
    | [x] => simp [hsplit] at hlen
    | [x, y] => simp [hsplit] at hlen
    | x :: y :: z :: rest =>
      rw [tryBuildingVfsEntry, hsplit]
  · intro name part hmem hsplit hparse
    unfold storeContains
    rw [if_neg hmem, tryBuildingVfsEntry, hsplit]
    dsimp only
    rw [hparse]
    simp [hmem]
  · intro name part idx hmem hsplit hparse hlook
    unfold storeContains
    rw [if_neg hmem, tryBuildingVfsEntry, hsplit]
    dsimp only
    rw [hparse]
    dsimp only
    rw [hlook]
  · intro name part idx nums hmem hkey hsplit hparse hlook
    unfold storeContains
    rw [if_neg hmem, tryBuildingVfsEntry, hsplit]
    dsimp only
    rw [hparse]
    dsimp only
    rw [hlook]
    dsimp only
    obtain ⟨hidx, hgrp⟩ := hwf _ (alookup_mem _ _ _ hlook)
    obtain ⟨indexes, hindexes⟩ := Option.isSome_iff_exists.mp hidx
    rw [hindexes]
    dsimp only
    by_cases hin : idx ∈ indexes
    · rw [if_pos hin]
      obtain ⟨varNames, hnames⟩ : ∃ v, alookup s.rangesVarNames nums = some v := by
        cases hv : alookup s.rangesVarNames nums with
        | none => rw [hv] at hgrp; simp at hgrp
        | some v => exact ⟨v, rfl⟩
      rw [hnames]
      dsimp only
      have hgrp' : name ∈ varNames := by
        rw [hnames] at hgrp
        simpa using hgrp
      have hkeymem : key ∈ varNames.foldl
          (fun ks v => addKey ks (v ++ '/' :: part)) s.vfsKeys := by
        rw [hkey]
        exact mem_foldl_addKey (fun v => v ++ '/' :: part) varNames _ _ hgrp'
      simp [hkeymem, hin]
    · rw [if_neg hin]
      simp [hmem, hin]

/-- Witness for C10 at the store with data variable `v` (shape `(2,4)`,
chunks `(2,4)`) and the in-range chunk key `v/0.0`: `__contains__` answers
`True` without raising. -/
theorem c10_contains_witness :
    storeContains (initStore [("v".data, [2, 4], [2, 4])]) "v/0.0".data =
      Except.ok true := by
  have h := (c10_contains_characterization
    (initStore [("v".data, [2, 4], [2, 4])]) (by decide)
    "v/0.0".data).2.2.2.2.2 "v".data "0.0".data [0, 0] [1, 1]
    (by decide) (by decide) (by decide) (by decide) (by decide)
  exact h.trans (by rfl)

section ChunkPlanner

/-!
## `RemoteChunkStore._adjust_chunk_sizes` / `_get_best_chunks`
(chunkstore.py lines 356-418)

```python
@classmethod
def _adjust_chunk_sizes(cls, chunks, sizes, time_dimension):
    sum_sizes = np.prod(sizes, dtype=np.int64)
    if time_dimension >= 0:
        sum_sizes = sum_sizes / sizes[time_dimension] * chunks[time_dimension]
        if sum_sizes < 1000000:
            best_chunks = sizes.copy()
            best_chunks[time_dimension] = chunks[time_dimension]
            return best_chunks
    if sum_sizes < 1000000:
        return sizes
    valid_chunk_sizes = []
    for i, chunk, size in zip(range(len(chunks)), chunks, sizes):
        if i == time_dimension:
            valid_chunk_sizes.append([chunk]); continue
        if size % chunk > 0:
            if np.prod(chunks, dtype=np.int64) / chunk * size < 1000000:
                valid_chunk_sizes.append([size])
            else:
                valid_chunk_sizes.append(list(range(chunk, size + 1, chunk)))
            continue
        valid_dim_chunk_sizes = []
        for r in range(chunk, size + 1, chunk):
            if size % r == 0:
                valid_dim_chunk_sizes.append(r)
        valid_chunk_sizes.append(valid_dim_chunk_sizes)
    chunks, chunk_size = cls._get_best_chunks(chunks, valid_chunk_sizes, chunks.copy(), 0, 0, time_dimension)
    return chunks

@classmethod
def _get_best_chunks(cls, chunks, valid_sizes, best_chunks, best_chunk_size, index, time_dimension):
    for valid_size in valid_sizes[index]:
        test_chunks = chunks.copy()
        test_chunks[index] = valid_size
        if index < len(chunks) - 1:
            test_chunks, test_chunk_size = cls._get_best_chunks(test_chunks, valid_sizes, best_chunks,
                                                                best_chunk_size, index + 1, time_dimension)
        else:
            test_chunk_size = np.prod(test_chunks, dtype=np.int64)
            if test_chunk_size > 1000000:
                break
        if test_chunk_size > best_chunk_size:
            best_chunk_size = test_chunk_size
            best_chunks = test_chunks.copy()
        elif test_chunk_size == best_chunk_size:
            where = np.full(len(test_chunks), fill_value=True)
            where[time_dimension] = False
            test_min_chunk = np.max(test_chunks, initial=0, where=where)
            best_min_chunk = np.max(best_chunks, initial=0, where=where)
            if best_min_chunk > test_min_chunk:
                best_chunk_size = test_chunk_size
                best_chunks = test_chunks.copy()
    return best_chunks, best_chunk_size

```

The two float divisions are exact rationals at every decision point and are
modelled as `Rat`.  `range(a, b, s)` needs `s ≥ 1` (`s = 0` raises
`ValueError` in Python; the theorems assume positive chunk sizes, which also
rules out the `ZeroDivisionError` of `size % 0`).  `where[time_dimension]`
uses Python's negative-index wrap-around, modelled in `maskedMax`.
-/

end ChunkPlanner

